import Mathlib

/-!
# Verification of the pocketratings frontend client against its specification

Shallow embedding of the SvelteKit frontend's API client
(`src/frontend/src/lib/api.ts` / the api client module), auth token store
(`src/frontend/src/lib/auth.ts`), category flattening
(`src/frontend/src/lib/types.ts` / `$lib/categories`), the category edit
page's parent options (`handleSubmit`/`parentOptions`), and the home page
loader (`src/frontend/src/routes/+page.ts`).  Backend components that are
not part of the source tree (the Rust `TreeIndex.build` and
`TreeIndex.would_cycle`) are modelled from the specification and marked as
such in their doc comments.
-/

namespace PocketRatings

/-! ## Auth token store — `src/frontend/src/lib/auth.ts`

The browser-side state the module touches: whether `window` is defined,
the Svelte `token` writable store, and the `pocketratings_token` entry of
`localStorage`.  JS `null` is modelled as `none`. -/

structure AuthState where
  hasWindow : Bool
  store : Option String
  storage : Option String
deriving Repr, DecidableEq

/-- `getToken` (auth.ts lines 9–19): returns `null` server-side; otherwise
the store value if non-null, else syncs the store from `localStorage`.
Returns the token together with the updated state (the store sync is a
side effect). -/
def getToken (s : AuthState) : Option String × AuthState :=
  if s.hasWindow = false then (none, s)
  else
    match s.store with
    | some value => (some value, s)
    | none =>
      match s.storage with
      | some fromStorage => (some fromStorage, { s with store := some fromStorage })
      | none => (none, s)

/-- `setToken` (auth.ts lines 22–26): no-op server-side; otherwise persists
to `localStorage` and updates the store. -/
def setToken (newToken : String) (s : AuthState) : AuthState :=
  if s.hasWindow = false then s
  else { s with storage := some newToken, store := some newToken }

/-- `clearToken` (auth.ts lines 29–33): no-op server-side; otherwise removes
the `localStorage` entry and sets the store to `null`. -/
def clearToken (s : AuthState) : AuthState :=
  if s.hasWindow = false then s
  else { s with storage := none, store := none }

/-- The token value `getToken()` observes in a given state. -/
def tokenValue (s : AuthState) : Option String :=
  (getToken s).1

/-! ## Headers — the `Headers` object used by `apiFetch`

Header names are case-insensitive; `set` replaces an existing entry,
`get` returns the value or `null`. -/

/-- ASCII lowercasing of a header-name character (header names are ASCII). -/
def lowerChar (c : Char) : Char :=
  if 65 ≤ c.toNat ∧ c.toNat ≤ 90 then Char.ofNat (c.toNat + 32) else c

def lowerName (s : String) : String :=
  String.mk (s.toList.map lowerChar)

def headerNameEq (a b : String) : Bool :=
  lowerName a == lowerName b

abbrev HeaderList := List (String × String)

def headersGet (hs : HeaderList) (nm : String) : Option String :=
  (hs.find? (fun p => headerNameEq p.1 nm)).map Prod.snd

def headersHas (hs : HeaderList) (nm : String) : Bool :=
  hs.any (fun p => headerNameEq p.1 nm)

def headersSet (hs : HeaderList) (nm v : String) : HeaderList :=
  if headersHas hs nm then
    hs.map (fun p => if headerNameEq p.1 nm then (p.1, v) else p)
  else hs ++ [(nm, v)]

/-! ## `apiFetch` — api client, request building and `X-New-Token` handling

`apiFetch` (client module lines 46–62): reads the stored token, attaches
`Authorization: Bearer <token>` when the token is truthy (non-null and
non-empty), defaults `Content-Type` when a string body is present, performs
the fetch, and finally stores a truthy `X-New-Token` response header value
via `setToken` before returning the response. -/

/-- JS truthiness of a `string | null` value. -/
def truthy : Option String → Bool
  | none => false
  | some t => t ≠ ""

/-- The request headers `apiFetch` sends, as a function of the caller's
`init.headers`, whether `init.body` is a string, and the token
`getToken()` returned. -/
def apiFetchHeaders (initHeaders : HeaderList) (bodyIsString : Bool)
    (tok : Option String) : HeaderList :=
  let headers := initHeaders
  let headers :=
    match tok with
    | some t => if t ≠ "" then headersSet headers "Authorization" ("Bearer " ++ t) else headers
    | none => headers
  if ¬ headersHas headers "Content-Type" ∧ bodyIsString then
    headersSet headers "Content-Type" "application/json"
  else headers

/-- The `X-New-Token` step of `apiFetch` (lines 57–60): a truthy header
value is stored via `setToken`. -/
def applyNewToken (resHeaders : HeaderList) (s : AuthState) : AuthState :=
  match headersGet resHeaders "X-New-Token" with
  | some newToken => if newToken ≠ "" then setToken newToken s else s
  | none => s

/-- The complete effect one `apiFetch` call has on the auth state:
`getToken()` runs first (possibly syncing the store from storage), then
the `X-New-Token` step. -/
def apiFetchAuth (resHeaders : HeaderList) (s : AuthState) : AuthState :=
  applyNewToken resHeaders (getToken s).2

/-- The headers of the request `apiFetch` issues from state `s`. -/
def apiFetchRequestHeaders (initHeaders : HeaderList) (bodyIsString : Bool)
    (s : AuthState) : HeaderList :=
  apiFetchHeaders initHeaders bodyIsString (getToken s).1

/-- The headers of the request `login` issues (client module lines 152–154):
`apiPost` passes `{ 'Content-Type': 'application/json' }` and a string body. -/
def loginRequestHeaders (s : AuthState) : HeaderList :=
  apiFetchRequestHeaders [("Content-Type", "application/json")] true s

/-! ## JSON values and response bodies

A parsed JSON value.  Numbers are modelled as integers: no claim computes
on a numeric body field, the value is only carried through. -/

inductive Json : Type where
  | null : Json
  | bool : Bool → Json
  | num : Int → Json
  | str : String → Json
  | arr : List Json → Json
  | obj : List (String × Json) → Json

/-- JS member access `value.k` on a parsed JSON value: `none` models the
JS `undefined` obtained on a non-object or a missing key. -/
def Json.getField : Json → String → Option Json
  | .obj fields, k => (fields.find? (fun p => p.1 == k)).map Prod.snd
  | _, _ => none

/-- JS `??`: a member-access result counts as nullish when the key is
missing (`undefined`) or its value is JSON `null`. -/
def jsNullish : Option Json → Bool
  | none => true
  | some .null => true
  | some _ => false

mutual

/-- JS string coercion applied by `new Error(x)` to a non-string JSON
value.  Array elements that are `null` coerce to the empty string inside
`Array.prototype.toString`. -/
def jsToString : Json → String
  | .null => "null"
  | .bool b => cond b "true" "false"
  | .num n => toString n
  | .str s => s
  | .arr xs => String.intercalate "," (jsArrayElemStrings xs)
  | .obj _ => "[object Object]"

def jsArrayElemStrings : List Json → List String
  | [] => []
  | .null :: rest => "" :: jsArrayElemStrings rest
  | j :: rest => jsToString j :: jsArrayElemStrings rest

end

/-- The error-message chain `err.message ?? err.error ?? `HTTP ${res.status}``
shared by `apiPost`, `apiGet`, `apiPatch` and `apiDelete`. -/
def apiErrorMessage (j : Json) (status : Nat) : String :=
  match jsNullish (j.getField "message"), j.getField "message" with
  | false, some m => jsToString m
  | _, _ =>
    match jsNullish (j.getField "error"), j.getField "error" with
    | false, some e => jsToString e
    | _, _ => "HTTP " ++ toString status

/-- How the raw response text relates to JSON: `empty` is the empty text,
`json` a text that parses, `notJson` a non-empty text that does not. -/
inductive ResBody : Type where
  | empty : ResBody
  | json : Json → ResBody
  | notJson : String → ResBody

structure ApiResponse where
  status : Nat
  body : ResBody

/-- `Response.ok`: status in the range 200–299. -/
def ApiResponse.ok (r : ApiResponse) : Bool :=
  200 ≤ r.status ∧ r.status ≤ 299

/-- The (JS-engine-specific) message of the `SyntaxError` rejection of
`res.json()` on a body that is not valid JSON, modelled as a fixed string;
no theorem depends on its exact text. -/
def jsonSyntaxErrorMessage : String :=
  "SyntaxError: response body is not valid JSON"

/-- `apiPost` (client module lines 64–77): `res.json()` then the error
chain on `!res.ok`, else the parsed body.  A body that is not valid JSON
(including an empty body) makes `res.json()` reject. -/
def apiPost (res : ApiResponse) : Except String Json :=
  match res.body with
  | .json data =>
    if ¬ res.ok then .error (apiErrorMessage data res.status)
    else .ok data
  | .empty => .error jsonSyntaxErrorMessage
  | .notJson _ => .error jsonSyntaxErrorMessage

/-- `apiGet` (client module lines 79–98): reads the text; empty text parses
to `{}`; unparseable text throws a dedicated message; otherwise the error
chain on `!res.ok`, else the parsed body. -/
def apiGet (path : String) (res : ApiResponse) : Except String Json :=
  match res.body with
  | .notJson text =>
    .error (if res.ok then "Invalid JSON in response from " ++ path
      else "HTTP " ++ toString res.status ++ ": response was not JSON" ++
        (if text ≠ "" then
          " (body: " ++ (String.mk (text.toList.take 100)) ++
            (if text.length > 100 then "…" else "") ++ ")"
        else ""))
  | .empty =>
    let data := Json.obj []
    if ¬ res.ok then .error (apiErrorMessage data res.status)
    else .ok data
  | .json data =>
    if ¬ res.ok then .error (apiErrorMessage data res.status)
    else .ok data

/-- `apiDelete` (client module lines 125–146): status 204 or 200 resolves
(the body is read and a parse is attempted, but any parse error is ignored
and the result discarded); any other status throws the error chain, with
plain `HTTP <status>` when the body is not JSON. -/
def apiDelete (res : ApiResponse) : Except String Unit :=
  if res.status == 204 || res.status == 200 then .ok ()
  else
    match res.body with
    | .json data => .error (apiErrorMessage data res.status)
    | .empty => .error (apiErrorMessage (Json.obj []) res.status)
    | .notJson _ => .error ("HTTP " ++ toString res.status)

/-! ### Spec-side reading of the error contract

The spec describes error bodies as carrying a stable machine-readable code
and an optional human message; the claims say the thrown message is the
human message when present, else the code, else `HTTP <status>`. -/

/-- The claim's error-message rule, stated over the two optional string
fields of the JSON error body. -/
def specErrorMessage (message errorCode : Option String) (status : Nat) : String :=
  match message with
  | some m => m
  | none =>
    match errorCode with
    | some e => e
    | none => "HTTP " ++ toString status

/-- The string value of field `k`, with JSON `null` and a missing key both
reading as absent. -/
def strFieldOpt (j : Json) (k : String) : Option String :=
  match j.getField k with
  | some (.str s) => some s
  | _ => none

/-- Field `k` is a string, JSON `null`, or absent (the shapes the error
contract allows for `message`/`error`). -/
def fieldStrOrNull (j : Json) (k : String) : Prop :=
  match j.getField k with
  | none => True
  | some (.str _) => True
  | some .null => True
  | some _ => False

/-! ## `encodeURIComponent` and the delete helpers' request URLs

The delete helpers build their URL as `'/api/v1/<kind>/' +
encodeURIComponent(id)` and call `apiDelete`, which issues a plain
`DELETE` with no body and no query manipulation. -/

/-- Characters `encodeURIComponent` leaves unescaped:
`A–Z a–z 0–9 - _ . ! ~ * ' ( )`. -/
def isUnescapedURIChar (c : Char) : Bool :=
  c.isAlphanum || ['-', '_', '.', '!', '~', '*', '\'', '(', ')'].contains c

def hexDigitChar (n : Nat) : Char :=
  if n < 10 then Char.ofNat (48 + n) else Char.ofNat (55 + n)

def percentEncodeByte (b : Nat) : List Char :=
  ['%', hexDigitChar (b / 16), hexDigitChar (b % 16)]

/-- The UTF-8 bytes of a character (code points are below `0x110000`). -/
def utf8Bytes (c : Char) : List Nat :=
  let n := c.toNat
  if n < 0x80 then [n]
  else if n < 0x800 then [0xC0 + n / 64, 0x80 + n % 64]
  else if n < 0x10000 then
    [0xE0 + n / 4096, 0x80 + n / 64 % 64, 0x80 + n % 64]
  else
    [0xF0 + n / 262144, 0x80 + n / 4096 % 64, 0x80 + n / 64 % 64, 0x80 + n % 64]

def encodeURIChar (c : Char) : List Char :=
  if isUnescapedURIChar c then [c]
  else ((utf8Bytes c).map percentEncodeByte).flatten

def encodeURIComponent (s : String) : String :=
  String.mk ((s.toList.map encodeURIChar).flatten)

/-- A request as the client helpers assemble it: method plus the URL path
string handed to `apiFetch` (the helpers add no query string of their own). -/
structure ClientRequest where
  method : String
  path : String
deriving Repr, DecidableEq

/-- `deleteCategory` (client module lines 189–191). -/
def deleteCategoryRequest (id : String) : ClientRequest :=
  { method := "DELETE", path := "/api/v1/categories/" ++ encodeURIComponent id }

/-- `deleteProduct` (client module lines 253–255). -/
def deleteProductRequest (id : String) : ClientRequest :=
  { method := "DELETE", path := "/api/v1/products/" ++ encodeURIComponent id }

/-- `deleteLocation` (client module lines 311–313). -/
def deleteLocationRequest (id : String) : ClientRequest :=
  { method := "DELETE", path := "/api/v1/locations/" ++ encodeURIComponent id }

/-- `deletePurchase` (client module lines 289–291). -/
def deletePurchaseRequest (id : String) : ClientRequest :=
  { method := "DELETE", path := "/api/v1/purchases/" ++ encodeURIComponent id }

/-- `deleteReview` (client module lines 227–229). -/
def deleteReviewRequest (id : String) : ClientRequest :=
  { method := "DELETE", path := "/api/v1/reviews/" ++ encodeURIComponent id }

/-- A URL string carries no query component (hence no `?force=true`)
exactly when it contains no `'?'`. -/
def hasNoQueryString (path : String) : Prop :=
  ∀ c ∈ path.toList, c ≠ '?'

/-! ## Categories — `src/frontend/src/lib/types.ts`

The `Category` interface: flat row fields plus an optional nested
`children` array (present in list responses). -/

structure CategoryRow where
  id : String
  parent_id : Option String
  name : String
  created_at : Int
  updated_at : Int
  deleted_at : Option Int
deriving Repr, DecidableEq

/-- A `Category` value: its row fields and the optional `children` array. -/
inductive Category : Type where
  | mk : CategoryRow → Option (List Category) → Category

def Category.row : Category → CategoryRow
  | .mk r _ => r

/-- The optional `children` field. -/
def Category.childrenField : Category → Option (List Category)
  | .mk _ ch => ch

/-- `c.children ?? []`. -/
def childrenList (c : Category) : List Category :=
  c.childrenField.getD []

def Category.id (c : Category) : String :=
  c.row.id

/-- An entry `{ category, depth }` of the flattened list. -/
structure FlatEntry where
  category : Category
  depth : Nat

/-- `flattenCategories` (tree flattening module lines 60–73), with the
`depth` parameter explicit.  The source's `c.children ?? []` is case-split
on the option so the recursion is structural; its
`if (children.length > 0)` guard is kept. -/
def flattenCategoriesAux : List Category → Nat → List FlatEntry
  | [], _ => []
  | .mk r none :: rest, depth =>
    ({ category := .mk r none, depth := depth } :: []) ++ flattenCategoriesAux rest depth
  | .mk r (some children) :: rest, depth =>
    ({ category := .mk r (some children), depth := depth } ::
        (if children.length > 0 then flattenCategoriesAux children (depth + 1) else []))
      ++ flattenCategoriesAux rest depth

/-- `flattenCategories(tree)` with the default `depth = 0`. -/
def flattenCategories (tree : List Category) : List FlatEntry :=
  flattenCategoriesAux tree 0

/-! ### Spec-side flattening

The spec's words: depth-first, parent before children, each node once, a
child's depth one more than its parent's. -/

/-- The `children` list is structurally smaller than its node (used by the
termination proofs of the traversals below). -/
def sizeOfChildrenListLt (c : Category) : sizeOf (childrenList c) < sizeOf c := by
  cases c with
  | mk r ch =>
    cases ch with
    | none => simp [childrenList, Category.childrenField]
    | some l =>
      simp [childrenList, Category.childrenField]
      omega

/-- The spec's traversal: each node yields one entry at the given depth,
immediately followed by its children's entries at depth + 1, depth-first. -/
def preorderFlatten : List Category → Nat → List FlatEntry
  | [], _ => []
  | c :: rest, depth =>
    ({ category := c, depth := depth } :: preorderFlatten (childrenList c) (depth + 1))
      ++ preorderFlatten rest depth
termination_by forest _ => sizeOf forest
decreasing_by
  · have := sizeOfChildrenListLt c
    simp
    omega
  · simp

/-- The depth-first, parent-before-children node enumeration. -/
def preorderNodes : List Category → List Category
  | [] => []
  | c :: rest => c :: (preorderNodes (childrenList c) ++ preorderNodes rest)
termination_by forest => sizeOf forest
decreasing_by
  · have := sizeOfChildrenListLt c
    simp
    omega
  · simp

/-- The ids of a forest's nodes, in preorder. -/
def forestIds (forest : List Category) : List String :=
  (preorderNodes forest).map Category.id

/-- The flat rows of a forest's nodes, in preorder. -/
def forestRows (forest : List Category) : List CategoryRow :=
  (preorderNodes forest).map Category.row

/-- The ids of a node and all of its descendants. -/
def subtreeIds (c : Category) : List String :=
  forestIds [c]

/-! ## The category edit page — `parentOptions` and `handleSubmit`

`parentOptions` (category edit page lines 11–13): the flattened category
list minus the edited category itself. -/

def parentOptions (category : Category) (categories : List Category) : List FlatEntry :=
  (flattenCategories categories).filter (fun e => e.category.id != category.id)

/-! ## TreeIndex — modelled from the spec (backend code not under `src/`) -/

/-- Modelled from the spec: the root test of `TreeIndex.build` — a row is a
root when it declares no parent or its declared parent does not exist in
the row set ("a row whose declared parent does not exist in the active set
is treated as a root"). -/
def isRootRow (rows : List CategoryRow) (r : CategoryRow) : Bool :=
  match r.parent_id with
  | none => true
  | some p => ! rows.any (fun s => s.id == p)

/-- The rows declaring `parentId` as parent, in row order. -/
def childRows (rows : List CategoryRow) (parentId : String) : List CategoryRow :=
  rows.filter (fun s => s.parent_id == some parentId)

/-- Modelled from the spec: the per-node constructor of `TreeIndex.build`
("groups rows by parent reference; produces, for each node, an ordered
list of direct children").  Fuel bounds the recursion; `build` supplies
fuel no smaller than the tree can be deep. -/
def buildNode : Nat → List CategoryRow → CategoryRow → Category
  | 0, _, r => .mk r (some [])
  | fuel + 1, rows, r =>
    .mk r (some ((childRows rows r.id).map (buildNode fuel rows)))

/-- Modelled from the spec: `TreeIndex.build` — the roots (in row order),
each carrying the subtree of rows that declare it as parent, recursively.
The backend Rust implementation is not under `src/`. -/
def build (rows : List CategoryRow) : List Category :=
  (rows.filter (isRootRow rows)).map (buildNode rows.length rows)

/-- Modelled from the spec: the ancestor chain walked by
`TreeIndex.would_cycle`, starting at (and including) the given id and
following parent references upward; fuel bounds the walk. -/
def ancestorChain (rows : List CategoryRow) : Nat → Option String → List String
  | 0, _ => []
  | _, none => []
  | fuel + 1, some pid =>
    pid ::
      (match rows.find? (fun s => s.id == pid) with
      | none => []
      | some r => ancestorChain rows fuel r.parent_id)

/-- Modelled from the spec: `TreeIndex.would_cycle(node_id,
proposed_parent_id)` — walks the ancestor chain starting at
`proposed_parent_id`; true iff `node_id` appears in that chain (including
`proposed_parent_id == node_id`). -/
def would_cycle (rows : List CategoryRow) (nodeId proposedParentId : String) : Bool :=
  (ancestorChain rows (rows.length + 1) (some proposedParentId)).contains nodeId

/-! ### Well-formedness of a category forest

The conditions under which a forest is faithfully described by its flat
rows: globally unique ids, every node's `children` array present with
correctly back-pointing children, and top-level parents null or dangling. -/

/-- Every node's children carry `parent_id = some (parent's id)`. -/
def childrenLinked (forest : List Category) : Prop :=
  ∀ z ∈ preorderNodes forest, ∀ c ∈ childrenList z, c.row.parent_id = some z.row.id

/-- Every node's `children` field is present (list-response shape). -/
def childrenPresent (forest : List Category) : Prop :=
  ∀ z ∈ preorderNodes forest, z.childrenField.isSome = true

/-- Top-level parents are null or dangling (outside the forest's ids). -/
def rootsOk (forest : List Category) : Prop :=
  ∀ t ∈ forest,
    match t.row.parent_id with
    | none => True
    | some p => p ∉ forestIds forest

/-- A well-formed forest. -/
def WFForest (forest : List Category) : Prop :=
  childrenLinked forest ∧ childrenPresent forest ∧ rootsOk forest ∧
    (forestIds forest).Nodup

/-! ### Sample category data (used by witnesses and counterexamples) -/

def rowA : CategoryRow :=
  { id := "a", parent_id := none, name := "A",
    created_at := 0, updated_at := 0, deleted_at := none }

def rowB : CategoryRow :=
  { id := "b", parent_id := some "a", name := "B",
    created_at := 0, updated_at := 0, deleted_at := none }

/-- A child whose `parent_id` correctly points at `rowA`. -/
def sampleChildB : Category := .mk rowB (some [])

/-- A root with one child, forming a well-formed two-node tree. -/
def sampleRootA : Category := .mk rowA (some [sampleChildB])

def sampleForest : List Category := [sampleRootA]

/-- A root whose child's `parent_id` is `null` (ill-formed linkage). -/
def rowBOrphan : CategoryRow :=
  { id := "b", parent_id := none, name := "B",
    created_at := 0, updated_at := 0, deleted_at := none }

def brokenRootA : Category := .mk rowA (some [.mk rowBOrphan (some [])])

def brokenForest : List Category := [brokenRootA]

/-- First node (in preorder) with the given id. -/
def findNode : List Category → String → Option Category
  | [], _ => none
  | c :: rest, q =>
    if c.row.id = q then some c
    else
      match findNode (childrenList c) q with
      | some x => some x
      | none => findNode rest q
termination_by forest _ => sizeOf forest
decreasing_by
  · have := sizeOfChildrenListLt c
    simp
    omega
  · simp

/-- Height of a forest: the longest root-to-leaf chain, counted in nodes. -/
def heightForest : List Category → Nat
  | [] => 0
  | c :: rest => max (1 + heightForest (childrenList c)) (heightForest rest)
termination_by forest => sizeOf forest
decreasing_by
  · have := sizeOfChildrenListLt c
    simp
    omega
  · simp

/-! ## The home page loader — `src/frontend/src/routes/+page.ts`

The wire shape of a review (per `docs/api.md`, `GET /api/v1/reviews`
returns nested `product` and `user` objects; the loader reads
`r.product.id`).  The JS `number` rating is modelled as `ℚ` (ratings allow
decimal subdivisions); the loader only copies it.  `text` is
`string | null`, modelled as `Option String`. -/

structure ProductRef where
  id : String
  brand : String
  name : String
deriving Repr, DecidableEq

structure UserRef where
  id : String
  name : String
deriving Repr, DecidableEq

structure ReviewWire where
  id : String
  product : ProductRef
  user : UserRef
  rating : ℚ
  text : Option String
  created_at : Int
  updated_at : Int
  deleted_at : Option Int
deriving Repr, DecidableEq

/-- `Product` from `src/frontend/src/lib/types.ts` lines 14–22. -/
structure Product where
  id : String
  category_id : String
  brand : String
  name : String
  created_at : Int
  updated_at : Int
  deleted_at : Option Int
deriving Repr, DecidableEq

/-- `ProductWithReview` (+page.ts lines 6–10); `rating`/`text` are absent
(`undefined`) when no review matches. -/
structure ProductWithReview where
  product : Product
  rating : Option ℚ
  text : Option String
deriving Repr, DecidableEq

/-- One step of the "latest review per product" loop (+page.ts lines
28–34): keep the incoming review when the map has no entry for its
product or the incoming `updated_at` is strictly greater. -/
def updateReviewMap (m : String → Option ReviewWire) (r : ReviewWire) :
    String → Option ReviewWire :=
  fun pid =>
    if pid = r.product.id then
      match m r.product.id with
      | none => some r
      | some existing =>
        if r.updated_at > existing.updated_at then some r else some existing
    else m pid

/-- The `reviewByProductId` map after the loop. -/
def reviewByProductId (reviews : List ReviewWire) : String → Option ReviewWire :=
  reviews.foldl updateReviewMap (fun _ => none)

/-- The item built for one product (+page.ts lines 35–42):
`rating: review != null ? review.rating : undefined`,
`text: review?.text ?? undefined`. -/
def pairProduct (reviews : List ReviewWire) (product : Product) : ProductWithReview :=
  let review := reviewByProductId reviews product.id
  { product := product
    rating := review.map ReviewWire.rating
    text := review.bind ReviewWire.text }

/-- The loader's `items` array. -/
def loadItems (products : List Product) (reviews : List ReviewWire) :
    List ProductWithReview :=
  products.map (pairProduct reviews)

/-- Invariant of the "latest review per product" loop: the map entry for
`pid` is the first-encountered maximal-`updated_at` review among the
processed reviews matching `pid`, and is empty iff none matches. -/
def GoodMap (rs : List ReviewWire) (m : String → Option ReviewWire) : Prop :=
  ∀ pid,
    (m pid = none → ∀ r ∈ rs, r.product.id ≠ pid) ∧
    (∀ r, m pid = some r → r ∈ rs ∧ r.product.id = pid ∧
      ∀ r2 ∈ rs, r2.product.id = pid → r2.updated_at ≤ r.updated_at)

/-! ### Sample loader data (used by witnesses) -/

def sampleProductX : Product :=
  { id := "p1", category_id := "c1", brand := "Acme", name := "Widget",
    created_at := 0, updated_at := 0, deleted_at := none }

def sampleReviewOld : ReviewWire :=
  { id := "r1", product := { id := "p1", brand := "Acme", name := "Widget" },
    user := { id := "u1", name := "U" }, rating := 3, text := some "ok",
    created_at := 0, updated_at := 10, deleted_at := none }

def sampleReviewNew : ReviewWire :=
  { id := "r2", product := { id := "p1", brand := "Acme", name := "Widget" },
    user := { id := "u1", name := "U" }, rating := 5, text := none,
    created_at := 0, updated_at := 20, deleted_at := none }

/-! ## Helper lemmas: auth state -/

theorem getToken_snd_hasWindow (s : AuthState) :
    (getToken s).2.hasWindow = s.hasWindow := by
  unfold getToken
  rcases s with ⟨hw, st, sg⟩
  cases hw <;> cases st <;> cases sg <;> rfl

theorem tokenValue_getToken_snd (s : AuthState) :
    tokenValue (getToken s).2 = tokenValue s := by
  unfold tokenValue getToken
  rcases s with ⟨hw, st, sg⟩
  cases hw <;> cases st <;> cases sg <;> rfl

theorem tokenValue_setToken (s : AuthState) (t : String)
    (hw : s.hasWindow = true) : tokenValue (setToken t s) = some t := by
  rcases s with ⟨_, st, sg⟩
  subst hw
  rfl

/-! ## Helper lemmas: headers -/

theorem headerNameEq_refl (nm : String) : headerNameEq nm nm = true := by
  simp [headerNameEq]

theorem headerNameEq_trans_ne {k nm q : String}
    (h1 : headerNameEq k q = true) (h2 : headerNameEq nm q = false) :
    headerNameEq k nm = false := by
  simp only [headerNameEq, beq_iff_eq, beq_eq_false_iff_ne, ne_eq] at *
  intro h
  exact h2 (h ▸ h1)

theorem find?_replace_self (nm v : String) (hs : HeaderList)
    (h : hs.any (fun p => headerNameEq p.1 nm) = true) :
    ((hs.map (fun p => if headerNameEq p.1 nm then (p.1, v) else p)).find?
      (fun p => headerNameEq p.1 nm)).map Prod.snd = some v := by
  induction hs with
  | nil => simp at h
  | cons p rest ih =>
    by_cases hp : headerNameEq p.1 nm = true
    · simp only [List.map_cons, if_pos hp]
      rw [List.find?_cons_of_pos _ (by simpa using hp)]
      rfl
    · simp only [List.map_cons, if_neg hp]
      rw [List.find?_cons_of_neg _ (by simpa using hp)]
      apply ih
      simp only [List.any_cons, Bool.or_eq_true] at h
      tauto

theorem find?_replace_other (nm v q : String) (hne : headerNameEq nm q = false)
    (hs : HeaderList) :
    ((hs.map (fun p => if headerNameEq p.1 nm then (p.1, v) else p)).find?
      (fun p => headerNameEq p.1 q)).map Prod.snd
      = (hs.find? (fun p => headerNameEq p.1 q)).map Prod.snd := by
  induction hs with
  | nil => rfl
  | cons p rest ih =>
    by_cases hq : headerNameEq p.1 q = true
    · have hpnm : headerNameEq p.1 nm = false := headerNameEq_trans_ne hq hne
      simp only [List.map_cons, hpnm, Bool.false_eq_true, if_false]
      rw [List.find?_cons_of_pos _ (by simpa using hq),
        List.find?_cons_of_pos _ (by simpa using hq)]
    · by_cases hpnm : headerNameEq p.1 nm = true
      · simp only [List.map_cons, if_pos hpnm]
        rw [List.find?_cons_of_neg _ (by simpa using hq),
          List.find?_cons_of_neg _ (by simpa using hq)]
        exact ih
      · simp only [List.map_cons, hpnm, Bool.false_eq_true, if_false]
        rw [List.find?_cons_of_neg _ (by simpa using hq),
          List.find?_cons_of_neg _ (by simpa using hq)]
        exact ih

theorem headersGet_set_self (hs : HeaderList) (nm v : String) :
    headersGet (headersSet hs nm v) nm = some v := by
  unfold headersSet headersHas
  by_cases h : hs.any (fun p => headerNameEq p.1 nm) = true
  · rw [if_pos h]
    exact find?_replace_self nm v hs h
  · rw [if_neg h]
    unfold headersGet
    rw [List.find?_append]
    have hnone : hs.find? (fun p => headerNameEq p.1 nm) = none := by
      apply List.find?_eq_none.2
      intro x hx hcontra
      exact h (List.any_eq_true.2 ⟨x, hx, hcontra⟩)
    simp [hnone, headerNameEq_refl]

theorem headersGet_set_other (hs : HeaderList) (nm v q : String)
    (hne : headerNameEq nm q = false) :
    headersGet (headersSet hs nm v) q = headersGet hs q := by
  unfold headersSet headersHas
  by_cases h : hs.any (fun p => headerNameEq p.1 nm) = true
  · rw [if_pos h]
    exact find?_replace_other nm v q hne hs
  · rw [if_neg h]
    unfold headersGet
    rw [List.find?_append]
    cases hfind : hs.find? (fun p => headerNameEq p.1 q) with
    | some p => simp
    | none => simp [hne]

theorem headersGet_eq_none_of_not_has (hs : HeaderList) (nm : String)
    (h : headersHas hs nm = false) : headersGet hs nm = none := by
  unfold headersGet
  unfold headersHas at h
  simp only [List.any_eq_false] at h
  have hnone : hs.find? (fun p => headerNameEq p.1 nm) = none := by
    apply List.find?_eq_none.2
    intro x hx hcontra
    exact absurd hcontra (by simpa using h x hx)
  simp [hnone]

/-! ## Claim C8 — token store round-trip and store/localStorage agreement -/

/-- C8: in a client environment (`window` defined), `getToken()` after
`setToken(t)` returns `t` and after `clearToken()` returns `null`, with the
reactive store and `localStorage` in agreement after either call; with
`window` undefined, `getToken()` returns `null` and `setToken`/`clearToken`
change nothing. -/
theorem c8_auth_store_roundtrip (s : AuthState) (t : String) :
    (s.hasWindow = true →
      tokenValue (setToken t s) = some t ∧
      tokenValue (clearToken s) = none ∧
      (setToken t s).store = (setToken t s).storage ∧
      (clearToken s).store = (clearToken s).storage) ∧
    (s.hasWindow = false →
      tokenValue s = none ∧ setToken t s = s ∧ clearToken s = s) := by
  rcases s with ⟨hw, st, sg⟩
  constructor
  · rintro rfl
    refine ⟨rfl, rfl, rfl, rfl⟩
  · rintro rfl
    refine ⟨rfl, rfl, rfl⟩

/-- Witness for C8 at a concrete state and token. -/
theorem c8_auth_store_roundtrip_witness :
    tokenValue (setToken "tok" ⟨true, none, none⟩) = some "tok" ∧
    setToken "tok" ⟨false, none, none⟩ = ⟨false, none, none⟩ :=
  ⟨((c8_auth_store_roundtrip ⟨true, none, none⟩ "tok").1 rfl).1,
   ((c8_auth_store_roundtrip ⟨false, none, none⟩ "tok").2 rfl).2.1⟩

/-! ## Claim C1 — `X-New-Token` handling in `apiFetch` -/

/-- C1 counterexample: a response that carries `X-New-Token` with the
empty-string value.  `if (newToken)` is false for `''`, so the stored
token is NOT replaced, contradicting the claim's "if the response carries
an X-New-Token header with value t then the stored session token is
replaced by t". -/
theorem c1_counterexample :
    headersGet [("X-New-Token", "")] "X-New-Token" = some "" ∧
    tokenValue (apiFetchAuth [("X-New-Token", "")]
      { hasWindow := true, store := some "old", storage := some "old" }) = some "old" ∧
    some "old" ≠ some "" := by
  refine ⟨by decide, by decide, by decide⟩

/-- C1 amended: in a client environment, a NON-EMPTY `X-New-Token` value
`t` replaces the stored token before the response is returned; when the
header is absent (or its value is empty) the stored token is unchanged. -/
theorem c1_apiFetch_new_token (s : AuthState) (resHeaders : HeaderList)
    (hw : s.hasWindow = true) :
    (∀ t, headersGet resHeaders "X-New-Token" = some t → t ≠ "" →
      tokenValue (apiFetchAuth resHeaders s) = some t) ∧
    (headersGet resHeaders "X-New-Token" = none →
      tokenValue (apiFetchAuth resHeaders s) = tokenValue s) ∧
    (headersGet resHeaders "X-New-Token" = some "" →
      tokenValue (apiFetchAuth resHeaders s) = tokenValue s) := by
  have hw2 : (getToken s).2.hasWindow = true := by
    rw [getToken_snd_hasWindow s]; exact hw
  refine ⟨?_, ?_, ?_⟩
  · intro t ht hne
    unfold apiFetchAuth applyNewToken
    simp only [ht, ne_eq, hne, not_false_eq_true, ite_true]
    exact tokenValue_setToken _ t hw2
  · intro ht
    unfold apiFetchAuth applyNewToken
    simp only [ht]
    exact tokenValue_getToken_snd s
  · intro ht
    unfold apiFetchAuth applyNewToken
    simp only [ht, ne_eq, not_true_eq_false, ite_false]
    exact tokenValue_getToken_snd s

/-- Witness for C1's amended theorem at a concrete state and header list. -/
theorem c1_apiFetch_new_token_witness :
    tokenValue (apiFetchAuth [("X-New-Token", "fresh")]
      { hasWindow := true, store := some "old", storage := some "old" }) = some "fresh" :=
  (c1_apiFetch_new_token
      { hasWindow := true, store := some "old", storage := some "old" }
      [("X-New-Token", "fresh")] rfl).1 "fresh" (by decide) (by decide)

/-! ## Claim C6 — Authorization header attachment -/

/-- C6 counterexample: the login request is NOT always sent without an
`Authorization` header — with a token stored (e.g. re-login while logged
in), `apiFetch` attaches `Authorization: Bearer <token>` to the login
request too. -/
theorem c6_counterexample :
    headersGet (loginRequestHeaders
      { hasWindow := true, store := some "tok", storage := some "tok" })
      "Authorization" = some "Bearer tok" := by
  decide

/-- C6 amended: the client attaches `Authorization: Bearer <token>` to a
request exactly when the stored token is truthy (non-null, non-empty) at
request time, with no special-casing of any endpoint; with no (or an
empty) stored token the request carries no `Authorization` header
(provided the caller's `init.headers` has none, which holds for every
helper in the client). -/
theorem c6_bearer_iff_token (initHeaders : HeaderList) (bodyIsString : Bool)
    (s : AuthState)
    (hna : headersHas initHeaders "Authorization" = false) :
    (∀ t, tokenValue s = some t → t ≠ "" →
      headersGet (apiFetchRequestHeaders initHeaders bodyIsString s)
        "Authorization" = some ("Bearer " ++ t)) ∧
    (truthy (tokenValue s) = false →
      headersGet (apiFetchRequestHeaders initHeaders bodyIsString s)
        "Authorization" = none) := by
  have hctauth : headerNameEq "Content-Type" "Authorization" = false := by decide
  constructor
  · intro t ht hne
    unfold apiFetchRequestHeaders apiFetchHeaders
    rw [show (getToken s).1 = some t from ht]
    simp only [hne, if_true, ne_eq, not_false_eq_true, ite_true]
    by_cases hct : ¬ headersHas (headersSet initHeaders "Authorization" ("Bearer " ++ t))
        "Content-Type" = true ∧ bodyIsString = true
    · rw [if_pos hct]
      rw [headersGet_set_other _ _ _ _ hctauth]
      exact headersGet_set_self initHeaders "Authorization" ("Bearer " ++ t)
    · rw [if_neg hct]
      exact headersGet_set_self initHeaders "Authorization" ("Bearer " ++ t)
  · intro ht
    unfold apiFetchRequestHeaders apiFetchHeaders
    unfold truthy tokenValue at ht
    cases hgt : (getToken s).1 with
    | none =>
      simp only
      by_cases hct : ¬ headersHas initHeaders "Content-Type" = true ∧ bodyIsString = true
      · rw [if_pos hct]
        rw [headersGet_set_other _ _ _ _ hctauth]
        exact headersGet_eq_none_of_not_has initHeaders "Authorization" hna
      · rw [if_neg hct]
        exact headersGet_eq_none_of_not_has initHeaders "Authorization" hna
    | some t =>
      rw [hgt] at ht
      have hte : t = "" := by
        by_contra hcontra
        simp [hcontra] at ht
      subst hte
      simp only [ne_eq, not_true_eq_false, ite_false]
      by_cases hct : ¬ headersHas initHeaders "Content-Type" = true ∧ bodyIsString = true
      · rw [if_pos hct]
        rw [headersGet_set_other _ _ _ _ hctauth]
        exact headersGet_eq_none_of_not_has initHeaders "Authorization" hna
      · rw [if_neg hct]
        exact headersGet_eq_none_of_not_has initHeaders "Authorization" hna

/-! ## Claim C2 — `flattenCategories` is the depth-first preorder with depths -/

theorem flattenCategoriesAux_eq_preorderFlatten (forest : List Category) (depth : Nat) :
    flattenCategoriesAux forest depth = preorderFlatten forest depth := by
  induction forest, depth using flattenCategoriesAux.induct with
  | case1 depth => rw [flattenCategoriesAux, preorderFlatten]
  | case2 r rest depth ih =>
    rw [flattenCategoriesAux, preorderFlatten, ih]
    simp [childrenList, Category.childrenField, preorderFlatten]
  | case3 r children rest depth ih1 ih2 =>
    rw [flattenCategoriesAux, preorderFlatten]
    simp only [childrenList, Category.childrenField, Option.getD_some]
    cases children with
    | nil => simp [preorderFlatten, ih2]
    | cons c cs => simp [ih1, ih2]

theorem preorderFlatten_map_category (forest : List Category) (depth : Nat) :
    (preorderFlatten forest depth).map FlatEntry.category = preorderNodes forest := by
  induction forest, depth using preorderFlatten.induct with
  | case1 depth => rw [preorderFlatten, preorderNodes]; rfl
  | case2 c rest depth ih1 ih2 =>
    rw [preorderFlatten, preorderNodes]
    simp [ih1, ih2]

theorem flattenCategoriesAux_cons (c : Category) (rest : List Category) (depth : Nat) :
    flattenCategoriesAux (c :: rest) depth
      = { category := c, depth := depth } ::
        (flattenCategoriesAux (childrenList c) (depth + 1)
          ++ flattenCategoriesAux rest depth) := by
  rcases c with ⟨r, ch⟩
  cases ch with
  | none =>
    rw [flattenCategoriesAux]
    simp only [childrenList, Category.childrenField, Option.getD_none]
    rw [flattenCategoriesAux]
    simp
  | some children =>
    rw [flattenCategoriesAux]
    cases children with
    | nil =>
      simp only [childrenList, Category.childrenField, Option.getD_some,
        List.length_nil, gt_iff_lt, lt_self_iff_false, if_false]
      rw [flattenCategoriesAux]
      simp
    | cons x xs => simp [childrenList, Category.childrenField]

/-- C2: `flattenCategories` is exactly the depth-first,
parent-before-children traversal: (i) the whole flattening equals the
spec-side preorder flattening, whose very structure places each node's
entry immediately before its children's entries and gives a child the
parent's depth plus one; (ii) the entries' category column is the preorder
node enumeration (each node of the input appears exactly once, parents
before descendants); (iii) the exported `flattenCategories` starts
top-level nodes at depth 0; (iv) the cons equation exhibits
parent-before-children directly; (v) the result is a pure function of the
input (equal inputs give equal outputs, no hidden iteration state). -/
theorem c2_flattenCategories_preorder (forest : List Category) (depth : Nat) :
    flattenCategoriesAux forest depth = preorderFlatten forest depth ∧
    (flattenCategories forest).map FlatEntry.category = preorderNodes forest ∧
    flattenCategories forest = preorderFlatten forest 0 ∧
    (∀ c rest, flattenCategoriesAux (c :: rest) depth
      = { category := c, depth := depth } ::
        (flattenCategoriesAux (childrenList c) (depth + 1)
          ++ flattenCategoriesAux rest depth)) ∧
    (∀ other, forest = other → flattenCategories forest = flattenCategories other) := by
  refine ⟨flattenCategoriesAux_eq_preorderFlatten forest depth, ?_, ?_, ?_, ?_⟩
  · rw [flattenCategories, flattenCategoriesAux_eq_preorderFlatten]
    exact preorderFlatten_map_category forest 0
  · rw [flattenCategories, flattenCategoriesAux_eq_preorderFlatten]
  · exact fun c rest => flattenCategoriesAux_cons c rest depth
  · rintro other rfl
    rfl

/-- Witness for C2's purity conjunct at a concrete two-node tree. -/
theorem c2_flattenCategories_preorder_witness :
    flattenCategories sampleForest = flattenCategories sampleForest ∧
    (flattenCategories sampleForest).map FlatEntry.category = preorderNodes sampleForest :=
  ⟨(c2_flattenCategories_preorder sampleForest 0).2.2.2.2 sampleForest rfl,
   (c2_flattenCategories_preorder sampleForest 0).2.1⟩

/-! ## Claim C5 — delete helpers and the force flag -/

theorem char_toNat_lt (c : Char) : c.toNat < 1114112 := by
  have hv := c.valid
  have he : c.toNat = c.val.toNat := rfl
  rcases hv with h | ⟨h1, h2⟩ <;> omega

theorem utf8Bytes_lt_256 (c : Char) : ∀ b ∈ utf8Bytes c, b < 256 := by
  intro b hb
  have hcn := char_toNat_lt c
  unfold utf8Bytes at hb
  by_cases h1 : c.toNat < 0x80
  · simp only [h1, if_true] at hb
    simp only [List.mem_singleton] at hb
    omega
  · simp only [h1, if_false] at hb
    by_cases h2 : c.toNat < 0x800
    · simp only [h2, if_true, List.mem_cons, List.mem_singleton,
        List.not_mem_nil, or_false] at hb
      rcases hb with rfl | rfl <;> omega
    · simp only [h2, if_false] at hb
      by_cases h3 : c.toNat < 0x10000
      · simp only [h3, if_true, List.mem_cons, List.mem_singleton,
          List.not_mem_nil, or_false] at hb
        rcases hb with rfl | rfl | rfl <;> omega
      · simp only [h3, if_false, List.mem_cons, List.mem_singleton,
          List.not_mem_nil, or_false] at hb
        rcases hb with rfl | rfl | rfl | rfl <;> omega

theorem hexDigitChar_ne_qmark : ∀ n, n < 16 → hexDigitChar n ≠ '?' := by
  decide

theorem mem_percentEncodeByte_ne_qmark (b : Nat) (hb : b < 256) :
    ∀ x ∈ percentEncodeByte b, x ≠ '?' := by
  intro x hx
  unfold percentEncodeByte at hx
  simp only [List.mem_cons, List.mem_singleton, List.not_mem_nil, or_false] at hx
  rcases hx with rfl | rfl | rfl
  · decide
  · exact hexDigitChar_ne_qmark _ (by omega)
  · exact hexDigitChar_ne_qmark _ (by omega)

theorem mem_encodeURIChar_ne_qmark (c : Char) : ∀ x ∈ encodeURIChar c, x ≠ '?' := by
  intro x hx
  unfold encodeURIChar at hx
  by_cases hu : isUnescapedURIChar c = true
  · rw [if_pos hu] at hx
    simp only [List.mem_singleton] at hx
    subst hx
    intro hq
    subst hq
    exact absurd hu (by decide)
  · rw [if_neg hu] at hx
    simp only [List.mem_flatten] at hx
    obtain ⟨l, hl, hxl⟩ := hx
    simp only [List.mem_map] at hl
    obtain ⟨b, hbmem, rfl⟩ := hl
    exact mem_percentEncodeByte_ne_qmark b (utf8Bytes_lt_256 c b hbmem) x hxl

theorem hasNoQueryString_append_encode (stem : String)
    (hstem : hasNoQueryString stem) (id : String) :
    hasNoQueryString (stem ++ encodeURIComponent id) := by
  intro ch hch
  have hsplit : (stem ++ encodeURIComponent id).toList
      = stem.toList ++ (encodeURIComponent id).toList := by
    simp [String.toList]
  rw [hsplit, List.mem_append] at hch
  rcases hch with h | h
  · exact hstem ch h
  · unfold encodeURIComponent at h
    have : (String.mk ((id.toList.map encodeURIChar).flatten)).toList
        = (id.toList.map encodeURIChar).flatten := rfl
    rw [this, List.mem_flatten] at h
    obtain ⟨l, hl, hchl⟩ := h
    simp only [List.mem_map] at hl
    obtain ⟨c, hcmem, rfl⟩ := hl
    exact mem_encodeURIChar_ne_qmark c ch hchl

/-- C5 counterexample: for the concrete id `c1` the category delete
request is the bare soft-delete `DELETE /api/v1/categories/c1`, carrying
no query string and hence no `force=true` marker — the client helpers
accept no force flag and can never ask for the hard-removal path the
claim describes. -/
theorem c5_counterexample :
    deleteCategoryRequest "c1" = { method := "DELETE", path := "/api/v1/categories/c1" } ∧
    hasNoQueryString (deleteCategoryRequest "c1").path := by
  constructor
  · decide
  · unfold hasNoQueryString
    decide

/-- C5 amended: each client delete helper (category, product, location,
purchase, review) takes only an id; the request it issues is always a
plain `DELETE` of the resource path with no query string, i.e. always the
soft-delete path — the `?force=true` hard-delete escape hatch of the API
is never requested by the client. -/
theorem c5_soft_delete_only (id : String) :
    ((deleteCategoryRequest id).method = "DELETE" ∧
      hasNoQueryString (deleteCategoryRequest id).path) ∧
    ((deleteProductRequest id).method = "DELETE" ∧
      hasNoQueryString (deleteProductRequest id).path) ∧
    ((deleteLocationRequest id).method = "DELETE" ∧
      hasNoQueryString (deleteLocationRequest id).path) ∧
    ((deletePurchaseRequest id).method = "DELETE" ∧
      hasNoQueryString (deletePurchaseRequest id).path) ∧
    ((deleteReviewRequest id).method = "DELETE" ∧
      hasNoQueryString (deleteReviewRequest id).path) := by
  refine ⟨⟨rfl, ?_⟩, ⟨rfl, ?_⟩, ⟨rfl, ?_⟩, ⟨rfl, ?_⟩, ⟨rfl, ?_⟩⟩ <;>
    exact hasNoQueryString_append_encode _ (by unfold hasNoQueryString; decide) id

/-! ## Claims C3 and C9 — error messages of `apiGet`, `apiPost`, `apiDelete` -/

/-- The code's error chain agrees with the spec's rule whenever the body's
`message`/`error` fields have the shapes the error contract allows. -/
theorem apiErrorMessage_eq_spec (j : Json) (status : Nat)
    (hm : fieldStrOrNull j "message") (he : fieldStrOrNull j "error") :
    apiErrorMessage j status
      = specErrorMessage (strFieldOpt j "message") (strFieldOpt j "error") status := by
  unfold fieldStrOrNull at hm he
  unfold apiErrorMessage specErrorMessage strFieldOpt
  cases hjm : j.getField "message" with
  | none =>
    cases hje : j.getField "error" with
    | none => simp [jsNullish]
    | some w =>
      rw [hje] at he
      cases w <;> simp_all [jsNullish, jsToString]
  | some v =>
    rw [hjm] at hm
    cases v with
    | str s => simp [jsNullish, jsToString]
    | null =>
      cases hje : j.getField "error" with
      | none => simp [jsNullish]
      | some w =>
        rw [hje] at he
        cases w <;> simp_all [jsNullish, jsToString]
    | bool b => exact hm.elim
    | num n => exact hm.elim
    | arr xs => exact hm.elim
    | obj fs => exact hm.elim

/-- C3: on a non-OK response whose body is JSON, `apiGet` and `apiPost`
throw the body's human `message` when present, else its `error` code, else
`HTTP <status>`; on an OK response with a JSON body both return the parsed
body. -/
theorem c3_apiGet_apiPost_contract (path : String) (res : ApiResponse) (j : Json)
    (hb : res.body = .json j)
    (hm : fieldStrOrNull j "message") (he : fieldStrOrNull j "error") :
    (res.ok = false →
      apiGet path res = .error (specErrorMessage (strFieldOpt j "message")
          (strFieldOpt j "error") res.status) ∧
      apiPost res = .error (specErrorMessage (strFieldOpt j "message")
          (strFieldOpt j "error") res.status)) ∧
    (res.ok = true → apiGet path res = .ok j ∧ apiPost res = .ok j) := by
  have hmsg := apiErrorMessage_eq_spec j res.status hm he
  constructor
  · intro hok
    unfold apiGet apiPost
    simp only [hb, hok, Bool.false_eq_true, not_false_eq_true, ite_true, hmsg]
    exact ⟨trivial, trivial⟩
  · intro hok
    unfold apiGet apiPost
    simp only [hb, hok, not_true_eq_false, ite_false]
    exact ⟨trivial, trivial⟩

/-- Witness for C3 at a concrete 404 response with a JSON error body and a
concrete 200 response. -/
theorem c3_apiGet_apiPost_contract_witness :
    apiGet "/api/v1/me" { status := 404, body := .json (.obj [("error", .str "not_found")]) }
      = .error "not_found" ∧
    apiPost { status := 200, body := .json (.obj [("token", .str "jwt")]) }
      = .ok (.obj [("token", .str "jwt")]) :=
  ⟨((c3_apiGet_apiPost_contract "/api/v1/me"
      { status := 404, body := .json (.obj [("error", .str "not_found")]) }
      (.obj [("error", .str "not_found")]) rfl (by trivial) (by trivial)).1
      (by decide)).1,
   ((c3_apiGet_apiPost_contract "/api/v1/me"
      { status := 200, body := .json (.obj [("token", .str "jwt")]) }
      (.obj [("token", .str "jwt")]) rfl (by trivial) (by trivial)).2
      (by decide)).2⟩

/-- C9: `apiDelete` resolves exactly on status 200 or 204 (whatever the
body); on any other status it throws the body's `message`, else its
`error` code, else `HTTP <status>` — the latter also when the body is
empty or not JSON. -/
theorem c9_apiDelete_contract (res : ApiResponse)
    (hj : ∀ j, res.body = .json j → fieldStrOrNull j "message" ∧ fieldStrOrNull j "error") :
    (apiDelete res = .ok () ↔ (res.status = 200 ∨ res.status = 204)) ∧
    (res.status ≠ 200 → res.status ≠ 204 →
      apiDelete res = .error (match res.body with
        | .json j => specErrorMessage (strFieldOpt j "message") (strFieldOpt j "error")
            res.status
        | .empty => "HTTP " ++ toString res.status
        | .notJson _ => "HTTP " ++ toString res.status)) := by
  by_cases hstat : res.status = 204 ∨ res.status = 200
  · have hb : (res.status == 204 || res.status == 200) = true := by
      rcases hstat with h | h <;> simp [h]
    unfold apiDelete
    rw [hb]
    simp only [if_true]
    have hrl : res.status = 200 ∨ res.status = 204 := by tauto
    exact ⟨iff_of_true trivial hrl, fun h200 h204 => absurd hrl (by tauto)⟩
  · have hb : (res.status == 204 || res.status == 200) = false := by
      simp only [Bool.or_eq_false_iff, beq_eq_false_iff_ne, ne_eq]
      exact ⟨fun h => hstat (Or.inl h), fun h => hstat (Or.inr h)⟩
    unfold apiDelete
    rw [hb]
    simp only [Bool.false_eq_true, if_false]
    constructor
    · constructor
      · intro h
        cases hres : res.body <;> rw [hres] at h <;> exact Except.noConfusion h
      · intro h
        exact absurd (by tauto : res.status = 204 ∨ res.status = 200) hstat
    · intro _ _
      cases hres : res.body with
      | empty =>
        have : apiErrorMessage (Json.obj []) res.status = "HTTP " ++ toString res.status := by
          simp [apiErrorMessage, Json.getField, jsNullish]
        simp [this]
      | json j =>
        have := hj j hres
        simp [apiErrorMessage_eq_spec j res.status this.1 this.2]
      | notJson raw => simp

/-- Witness for C9 at a concrete 409 conflict response and a concrete 204
response. -/
theorem c9_apiDelete_contract_witness :
    apiDelete { status := 409, body := .json (.obj [("error", .str "conflict"),
        ("message", .str "Category has children")]) }
      = .error "Category has children" ∧
    (apiDelete { status := 204, body := .empty } = .ok () ↔ (204 = 200 ∨ 204 = 204)) :=
  ⟨(c9_apiDelete_contract
      { status := 409, body := .json (.obj [("error", .str "conflict"),
          ("message", .str "Category has children")]) }
      (fun j h => by
        injection h with h
        subst h
        exact ⟨by trivial, by trivial⟩)).2 (by decide) (by decide),
   (c9_apiDelete_contract { status := 204, body := .empty }
      (fun j h => ResBody.noConfusion h)).1⟩

/-- Witness for C6's amended theorem: a GET-style request (no init
headers) from a state with stored token `tok`, and one from a state with
no stored token. -/
theorem c6_bearer_iff_token_witness :
    headersGet (apiFetchRequestHeaders [] false
      { hasWindow := true, store := some "tok", storage := some "tok" })
      "Authorization" = some ("Bearer " ++ "tok") ∧
    headersGet (apiFetchRequestHeaders [] false
      { hasWindow := true, store := none, storage := none })
      "Authorization" = none :=
  ⟨(c6_bearer_iff_token [] false
      { hasWindow := true, store := some "tok", storage := some "tok" } rfl).1
      "tok" rfl (by decide),
   (c6_bearer_iff_token [] false
      { hasWindow := true, store := none, storage := none } rfl).2 rfl⟩

/-! ## Helper lemmas: preorder traversal, ids and rows of a forest -/

theorem preorderNodes_nil : preorderNodes [] = [] := by
  rw [preorderNodes]

theorem preorderNodes_cons (c : Category) (rest : List Category) :
    preorderNodes (c :: rest)
      = c :: (preorderNodes (childrenList c) ++ preorderNodes rest) := by
  rw [preorderNodes]

theorem forestRows_nil : forestRows [] = [] := by
  unfold forestRows
  rw [preorderNodes_nil]
  rfl

theorem forestRows_cons (c : Category) (rest : List Category) :
    forestRows (c :: rest)
      = c.row :: (forestRows (childrenList c) ++ forestRows rest) := by
  unfold forestRows
  rw [preorderNodes_cons]
  simp

theorem forestIds_nil : forestIds [] = [] := by
  unfold forestIds
  rw [preorderNodes_nil]
  rfl

theorem forestIds_cons (c : Category) (rest : List Category) :
    forestIds (c :: rest)
      = c.row.id :: (forestIds (childrenList c) ++ forestIds rest) := by
  unfold forestIds
  rw [preorderNodes_cons]
  simp [Category.id]

theorem forestIds_eq_rows_ids (F : List Category) :
    forestIds F = (forestRows F).map CategoryRow.id := by
  unfold forestIds forestRows
  rw [List.map_map]
  rfl

theorem mem_forestIds_of_mem {x : Category} {F : List Category}
    (hx : x ∈ preorderNodes F) : x.row.id ∈ forestIds F :=
  List.mem_map.2 ⟨x, hx, rfl⟩

theorem mem_forestRows_of_mem {x : Category} {F : List Category}
    (hx : x ∈ preorderNodes F) : x.row ∈ forestRows F :=
  List.mem_map.2 ⟨x, hx, rfl⟩

theorem subtree_sublist (F : List Category) :
    ∀ x ∈ preorderNodes F,
      (x :: preorderNodes (childrenList x)).Sublist (preorderNodes F) := by
  induction F using preorderNodes.induct with
  | case1 =>
    intro x hx
    rw [preorderNodes_nil] at hx
    exact absurd hx (List.not_mem_nil x)
  | case2 c rest ih1 ih2 =>
    intro x hx
    rw [preorderNodes_cons] at hx ⊢
    rcases List.mem_cons.1 hx with rfl | hx
    · exact (List.sublist_append_left _ _).cons₂ x
    · rcases List.mem_append.1 hx with h | h
      · exact ((ih1 x h).trans (List.sublist_append_left _ _)).cons c
      · exact ((ih2 x h).trans (List.sublist_append_right _ _)).cons c

/-- Every node of a forest is either top-level or a child of some node. -/
theorem mem_top_or_child (F : List Category) :
    ∀ y ∈ preorderNodes F, y ∈ F ∨ ∃ z ∈ preorderNodes F, y ∈ childrenList z := by
  induction F using preorderNodes.induct with
  | case1 =>
    intro y hy
    rw [preorderNodes_nil] at hy
    exact absurd hy (List.not_mem_nil y)
  | case2 c rest ih1 ih2 =>
    intro y hy
    rw [preorderNodes_cons] at hy
    rcases List.mem_cons.1 hy with rfl | hy
    · exact Or.inl (List.mem_cons_self y rest)
    · rcases List.mem_append.1 hy with h | h
      · rcases ih1 y h with htop | ⟨z, hz, hyz⟩
        · exact Or.inr ⟨c, by rw [preorderNodes_cons]; exact List.mem_cons_self c _, htop⟩
        · exact Or.inr ⟨z, by
            rw [preorderNodes_cons]
            exact List.mem_cons_of_mem c (List.mem_append.2 (Or.inl hz)), hyz⟩
      · rcases ih2 y h with htop | ⟨z, hz, hyz⟩
        · exact Or.inl (List.mem_cons_of_mem c htop)
        · exact Or.inr ⟨z, by
            rw [preorderNodes_cons]
            exact List.mem_cons_of_mem c (List.mem_append.2 (Or.inr hz)), hyz⟩

/-- In a row list with pairwise-distinct ids, `find?` by a member's id
returns that member. -/
theorem find_row_of_nodup (l : List CategoryRow)
    (hnd : (l.map CategoryRow.id).Nodup) (r : CategoryRow) (hr : r ∈ l) :
    l.find? (fun s => s.id == r.id) = some r := by
  induction l with
  | nil => exact absurd hr (List.not_mem_nil r)
  | cons a l ih =>
    simp only [List.map_cons, List.nodup_cons] at hnd
    rcases List.mem_cons.1 hr with rfl | hr
    · exact List.find?_cons_of_pos _ (by simp)
    · have hne : (a.id == r.id) = false := by
        simp only [beq_eq_false_iff_ne, ne_eq]
        intro hcontra
        exact hnd.1 (hcontra ▸ List.mem_map.2 ⟨r, hr, rfl⟩)
      rw [List.find?_cons_of_neg _ (by simp [hne])]
      exact ih hnd.2 hr

theorem findNode_eq_none (F : List Category) (q : String)
    (h : q ∉ forestIds F) : findNode F q = none := by
  induction F using preorderNodes.induct with
  | case1 => rw [findNode]
  | case2 c rest ih1 ih2 =>
    rw [forestIds_cons] at h
    simp only [List.mem_cons, List.mem_append, not_or] at h
    rw [findNode, if_neg (fun hc => h.1 hc.symm), ih1 (fun hc => h.2.1 hc),
      ih2 (fun hc => h.2.2 hc)]

theorem findNode_mem (F : List Category) (q : String) :
    ∀ x, findNode F q = some x → x ∈ preorderNodes F ∧ x.row.id = q := by
  induction F using preorderNodes.induct with
  | case1 =>
    intro x hx
    rw [findNode] at hx
    exact Option.noConfusion hx
  | case2 c rest ih1 ih2 =>
    intro x hx
    rw [findNode] at hx
    rw [preorderNodes_cons]
    by_cases hc : c.row.id = q
    · rw [if_pos hc] at hx
      injection hx with hx
      subst hx
      exact ⟨List.mem_cons_self c _, hc⟩
    · rw [if_neg hc] at hx
      cases hf : findNode (childrenList c) q with
      | some y =>
        rw [hf] at hx
        injection hx with hx
        subst hx
        have := ih1 y hf
        exact ⟨List.mem_cons_of_mem c (List.mem_append.2 (Or.inl this.1)), this.2⟩
      | none =>
        rw [hf] at hx
        have := ih2 x hx
        exact ⟨List.mem_cons_of_mem c (List.mem_append.2 (Or.inr this.1)), this.2⟩

theorem findNode_of_mem_nodup (F : List Category)
    (hnd : (forestIds F).Nodup) :
    ∀ x ∈ preorderNodes F, findNode F x.row.id = some x := by
  induction F using preorderNodes.induct with
  | case1 =>
    intro x hx
    rw [preorderNodes_nil] at hx
    exact absurd hx (List.not_mem_nil x)
  | case2 c rest ih1 ih2 =>
    rw [forestIds_cons] at hnd
    have hnotin := (List.nodup_cons.1 hnd).1
    have hnd2 := (List.nodup_cons.1 hnd).2
    have hndl : (forestIds (childrenList c)).Nodup :=
      (List.sublist_append_left _ _).nodup hnd2
    have hndr : (forestIds rest).Nodup :=
      (List.sublist_append_right _ _).nodup hnd2
    have hdisj : (forestIds (childrenList c)).Disjoint (forestIds rest) :=
      (List.nodup_append.1 hnd2).2.2
    intro x hx
    rw [preorderNodes_cons] at hx
    rw [findNode]
    rcases List.mem_cons.1 hx with rfl | hx
    · rw [if_pos rfl]
    · rcases List.mem_append.1 hx with h | h
      · have hne : c.row.id ≠ x.row.id := by
          intro hc
          exact hnotin (hc ▸ List.mem_append.2 (Or.inl (mem_forestIds_of_mem h)))
        rw [if_neg hne, ih1 hndl x h]
      · have hne : c.row.id ≠ x.row.id := by
          intro hc
          exact hnotin (hc ▸ List.mem_append.2 (Or.inr (mem_forestIds_of_mem h)))
        have hxid : x.row.id ∉ forestIds (childrenList c) := fun hc =>
          hdisj hc (mem_forestIds_of_mem h)
        rw [if_neg hne, findNode_eq_none _ _ hxid, ih2 hndr x h]

/-- Core filter lemma: in a forest whose nodes' children point back at
their parent, whose tops all carry the same parent pointer `pOpt` that
never refers into the forest, and whose ids are distinct, the rows
declaring `q` as parent are exactly the tops (when `q` is the ambient
parent) or the children of the unique node with id `q`. -/
theorem childRows_forest :
    ∀ (G : List Category) (pOpt : Option String) (q : String),
      (∀ z ∈ preorderNodes G, ∀ d ∈ childrenList z, d.row.parent_id = some z.row.id) →
      (∀ t ∈ G, t.row.parent_id = pOpt) →
      (∀ p, pOpt = some p → p ∉ forestIds G) →
      (forestIds G).Nodup →
      childRows (forestRows G) q
        = if pOpt = some q then G.map Category.row
          else
            match findNode G q with
            | some x => (childrenList x).map Category.row
            | none => [] := by
  intro G
  induction G using preorderNodes.induct with
  | case1 =>
    intro pOpt q h1 h2 h3 h4
    rw [forestRows_nil, findNode]
    unfold childRows
    rw [List.filter_nil]
    split <;> rfl
  | case2 c rest ih1 ih2 =>
    intro pOpt q h1 h2 h3 h4
    rw [forestIds_cons] at h4
    have hnotin := (List.nodup_cons.1 h4).1
    have h4' := (List.nodup_cons.1 h4).2
    have hndl : (forestIds (childrenList c)).Nodup :=
      (List.sublist_append_left _ _).nodup h4'
    have hndr : (forestIds rest).Nodup :=
      (List.sublist_append_right _ _).nodup h4'
    have hdisj : (forestIds (childrenList c)).Disjoint (forestIds rest) :=
      (List.nodup_append.1 h4').2.2
    have hcmem : c ∈ preorderNodes (c :: rest) := by
      rw [preorderNodes_cons]
      exact List.mem_cons_self c _
    have h1l : ∀ z ∈ preorderNodes (childrenList c),
        ∀ d ∈ childrenList z, d.row.parent_id = some z.row.id := fun z hz =>
      h1 z (by
        rw [preorderNodes_cons]
        exact List.mem_cons_of_mem c (List.mem_append.2 (Or.inl hz)))
    have h1r : ∀ z ∈ preorderNodes rest,
        ∀ d ∈ childrenList z, d.row.parent_id = some z.row.id := fun z hz =>
      h1 z (by
        rw [preorderNodes_cons]
        exact List.mem_cons_of_mem c (List.mem_append.2 (Or.inr hz)))
    have hihl := ih1 (some c.row.id) q h1l (fun t ht => h1 c hcmem t ht)
      (fun p hp => by
        injection hp with hp
        subst hp
        exact fun hc => hnotin (List.mem_append.2 (Or.inl hc)))
      hndl
    have hihr := ih2 pOpt q h1r (fun t ht => h2 t (List.mem_cons_of_mem c ht))
      (fun p hp hmem => h3 p hp (by
        rw [forestIds_cons]
        exact List.mem_cons_of_mem _ (List.mem_append.2 (Or.inr hmem))))
      hndr
    have hhead : c.row.parent_id = pOpt := h2 c (List.mem_cons_self c rest)
    rw [forestRows_cons]
    unfold childRows at hihl hihr ⊢
    rw [List.filter_cons, List.filter_append]
    by_cases hpq : pOpt = some q
    · have hq_not : q ∉ forestIds (c :: rest) := h3 q hpq
      rw [forestIds_cons] at hq_not
      simp only [List.mem_cons, List.mem_append, not_or] at hq_not
      have hcq : ¬ some c.row.id = some q := fun hc => by
        injection hc with hc
        exact hq_not.1 hc.symm
      rw [if_pos hpq]
      rw [if_pos (by simp [hhead, hpq])]
      rw [hihl, if_neg hcq, findNode_eq_none _ _ (fun hc => hq_not.2.1 hc)]
      rw [hihr, if_pos hpq]
      simp
    · have hheadq : ¬ ((c.row.parent_id == some q) = true) := by
        rw [hhead]
        simp only [beq_iff_eq]
        exact hpq
      rw [if_neg hpq, if_neg hheadq]
      rw [findNode]
      by_cases hcq : c.row.id = q
      · rw [if_pos hcq]
        rw [hihl, if_pos (by rw [hcq])]
        have hq_rest : q ∉ forestIds rest := fun hc =>
          hnotin (hcq ▸ List.mem_append.2 (Or.inr hc))
        rw [hihr, if_neg hpq, findNode_eq_none _ _ hq_rest]
        simp
      · rw [if_neg hcq]
        rw [hihl, if_neg (fun hc => hcq (by injection hc))]
        cases hf : findNode (childrenList c) q with
        | some x =>
          have hxmem := findNode_mem _ _ x hf
          have hq_rest : q ∉ forestIds rest := fun hc =>
            hdisj (hxmem.2 ▸ mem_forestIds_of_mem hxmem.1) hc
          rw [hihr, if_neg hpq, findNode_eq_none _ _ hq_rest]
          simp
        | none =>
          rw [hihr, if_neg hpq]
          simp

/-- Top-level nodes are among a forest's preorder nodes. -/
theorem mem_preorderNodes_of_mem_top {c : Category} {G : List Category}
    (h : c ∈ G) : c ∈ preorderNodes G := by
  induction G with
  | nil => exact absurd h (List.not_mem_nil c)
  | cons a rest ih =>
    rw [preorderNodes_cons]
    rcases List.mem_cons.1 h with rfl | h
    · exact List.mem_cons_self c _
    · exact List.mem_cons_of_mem a (List.mem_append.2 (Or.inr (ih h)))

/-- Nodes of a node's children forest are nodes of any forest containing
the node. -/
theorem mem_preorderNodes_of_subtree {x y : Category} {F : List Category}
    (hx : x ∈ preorderNodes F) (hy : y ∈ preorderNodes (childrenList x)) :
    y ∈ preorderNodes F :=
  (subtree_sublist F x hx).mem (List.mem_cons_of_mem x hy)

/-- `childRows` over a whole well-linked forest whose tops do not declare
`q` as parent: the rows declaring `q` as parent are exactly the children
of the node with id `q`. -/
theorem childRows_top :
    ∀ (F : List Category) (q : String),
      childrenLinked F →
      (∀ t ∈ F, ∀ p, t.row.parent_id = some p → p ≠ q) →
      (forestIds F).Nodup →
      childRows (forestRows F) q
        = match findNode F q with
          | some x => (childrenList x).map Category.row
          | none => [] := by
  intro F
  induction F with
  | nil =>
    intro q h1 h2 h4
    rw [forestRows_nil, findNode]
    rfl
  | cons c rest ih =>
    intro q h1 h2 h4
    rw [forestIds_cons] at h4
    have hnotin := (List.nodup_cons.1 h4).1
    have h4' := (List.nodup_cons.1 h4).2
    have hndl : (forestIds (childrenList c)).Nodup :=
      (List.sublist_append_left _ _).nodup h4'
    have hndr : (forestIds rest).Nodup :=
      (List.sublist_append_right _ _).nodup h4'
    have hdisj : (forestIds (childrenList c)).Disjoint (forestIds rest) :=
      (List.nodup_append.1 h4').2.2
    have hcmem : c ∈ preorderNodes (c :: rest) :=
      mem_preorderNodes_of_mem_top (List.mem_cons_self c rest)
    have h1l : ∀ z ∈ preorderNodes (childrenList c),
        ∀ d ∈ childrenList z, d.row.parent_id = some z.row.id := fun z hz =>
      h1 z (mem_preorderNodes_of_subtree hcmem hz)
    have h1r : childrenLinked rest := fun z hz =>
      h1 z (by
        rw [preorderNodes_cons]
        exact List.mem_cons_of_mem c (List.mem_append.2 (Or.inr hz)))
    have hchild := childRows_forest (childrenList c) (some c.row.id) q h1l
      (fun t ht => h1 c hcmem t ht)
      (fun p hp => by
        injection hp with hp
        subst hp
        exact fun hc => hnotin (List.mem_append.2 (Or.inl hc)))
      hndl
    have hrest := ih q h1r (fun t ht => h2 t (List.mem_cons_of_mem c ht)) hndr
    have hheadq : (c.row.parent_id == some q) = false := by
      cases hp : c.row.parent_id with
      | none => rfl
      | some p =>
        simp only [beq_eq_false_iff_ne, ne_eq, Option.some.injEq]
        exact h2 c (List.mem_cons_self c rest) p hp
    rw [forestRows_cons]
    unfold childRows at hchild hrest ⊢
    rw [List.filter_cons, List.filter_append]
    simp only [hheadq, Bool.false_eq_true, if_false]
    rw [findNode]
    by_cases hcq : c.row.id = q
    · rw [if_pos hcq]
      rw [hchild, if_pos (by rw [hcq])]
      have hq_rest : q ∉ forestIds rest := fun hc =>
        hnotin (hcq ▸ List.mem_append.2 (Or.inr hc))
      rw [hrest, findNode_eq_none _ _ hq_rest]
      simp
    · rw [if_neg hcq]
      rw [hchild, if_neg (fun hc => hcq (by injection hc))]
      cases hf : findNode (childrenList c) q with
      | some x =>
        have hxmem := findNode_mem _ _ x hf
        have hq_rest : q ∉ forestIds rest := fun hc =>
          hdisj (hxmem.2 ▸ mem_forestIds_of_mem hxmem.1) hc
        rw [hrest, findNode_eq_none _ _ hq_rest]
        simp
      | none =>
        rw [hrest]
        simp

/-- For a well-formed forest, the rows declaring node `x`'s id as parent
are exactly `x`'s children, in order. -/
theorem childRows_of_WF (F : List Category) (hWF : WFForest F)
    (x : Category) (hx : x ∈ preorderNodes F) :
    childRows (forestRows F) x.row.id = (childrenList x).map Category.row := by
  obtain ⟨h1, hcp, hroots, hnd⟩ := hWF
  have h2 : ∀ t ∈ F, ∀ p, t.row.parent_id = some p → p ≠ x.row.id := by
    intro t ht p hp hcontra
    have hr := hroots t ht
    rw [hp] at hr
    exact hr (hcontra ▸ mem_forestIds_of_mem hx)
  rw [childRows_top F x.row.id h1 h2 hnd, findNode_of_mem_nodup F hnd x hx]

/-! ## Helper lemmas: heights and fuel -/

theorem heightForest_nil : heightForest [] = 0 := by
  rw [heightForest]

theorem heightForest_cons (c : Category) (rest : List Category) :
    heightForest (c :: rest)
      = max (1 + heightForest (childrenList c)) (heightForest rest) := by
  rw [heightForest]

theorem height_le_of_mem {G : List Category} {c : Category} (h : c ∈ G) :
    1 + heightForest (childrenList c) ≤ heightForest G := by
  induction G with
  | nil => exact absurd h (List.not_mem_nil c)
  | cons a rest ih =>
    rw [heightForest_cons]
    rcases List.mem_cons.1 h with rfl | h
    · exact le_max_left _ _
    · exact (ih h).trans (le_max_right _ _)

theorem heightForest_le_length (G : List Category) :
    heightForest G ≤ (preorderNodes G).length := by
  induction G using preorderNodes.induct with
  | case1 => rw [heightForest_nil, preorderNodes_nil]; simp
  | case2 c rest ih1 ih2 =>
    rw [heightForest_cons, preorderNodes_cons]
    simp only [List.length_cons, List.length_append]
    omega

/-! ## `build` rebuilds a well-formed forest from its rows -/

theorem buildNode_eq (F : List Category) (hWF : WFForest F) :
    ∀ fuel (x : Category), x ∈ preorderNodes F →
      1 + heightForest (childrenList x) ≤ fuel →
      buildNode fuel (forestRows F) x.row = x := by
  intro fuel
  induction fuel with
  | zero =>
    intro x hx hle
    omega
  | succ fuel ih =>
    intro x hx hle
    rw [buildNode, childRows_of_WF F hWF x hx, List.map_map]
    have hmapeq : List.map (buildNode fuel (forestRows F) ∘ Category.row)
        (childrenList x) = childrenList x := by
      rw [show childrenList x = List.map id (childrenList x) by rw [List.map_id]]
      rw [List.map_map]
      apply List.map_congr_left
      intro d hd
      simp only [Function.comp, id]
      apply ih d (mem_preorderNodes_of_subtree hx (mem_preorderNodes_of_mem_top hd))
      have hdh := height_le_of_mem hd
      omega
    rw [hmapeq]
    have hsome := hWF.2.1 x hx
    rcases x with ⟨r, ch⟩
    cases ch with
    | none => simp [Category.childrenField] at hsome
    | some l =>
      simp only [Category.row, childrenList, Category.childrenField, Option.getD_some]

theorem rows_nonroot_of_child {F : List Category} (h1 : childrenLinked F)
    {z y : Category} (hz : z ∈ preorderNodes F) (hy : y ∈ childrenList z) :
    isRootRow (forestRows F) y.row = false := by
  have hp : y.row.parent_id = some z.row.id := h1 z hz y hy
  unfold isRootRow
  rw [hp]
  have hany : (forestRows F).any (fun s => s.id == z.row.id) = true :=
    List.any_eq_true.2 ⟨z.row, mem_forestRows_of_mem hz, by simp⟩
  simp [hany]

theorem filter_root_sub (F : List Category) (h1 : childrenLinked F) :
    ∀ (L : List Category),
      (∀ y ∈ preorderNodes L, y ∈ preorderNodes F) →
      (∀ t ∈ L, isRootRow (forestRows F) t.row = true) →
      (forestRows L).filter (isRootRow (forestRows F)) = L.map Category.row := by
  intro L
  induction L with
  | nil =>
    intro hsub htop
    rw [forestRows_nil]
    rfl
  | cons t restL ih =>
    intro hsub htop
    have htmem : t ∈ preorderNodes F :=
      hsub t (mem_preorderNodes_of_mem_top (List.mem_cons_self t restL))
    rw [forestRows_cons, List.filter_cons, List.filter_append]
    rw [htop t (List.mem_cons_self t restL)]
    simp only [if_true]
    have hchildnil : (forestRows (childrenList t)).filter
        (isRootRow (forestRows F)) = [] := by
      rw [List.filter_eq_nil_iff]
      intro r hr
      obtain ⟨y, hy, rfl⟩ := List.mem_map.1 hr
      have hyF : y ∈ preorderNodes (childrenList t) := hy
      rcases mem_top_or_child (childrenList t) y hyF with htopy | ⟨z, hz, hyz⟩
      · rw [rows_nonroot_of_child h1 htmem htopy]
        simp
      · rw [rows_nonroot_of_child h1 (mem_preorderNodes_of_subtree htmem hz) hyz]
        simp
    rw [hchildnil]
    rw [ih (fun y hy => hsub y (by
        rw [preorderNodes_cons]
        exact List.mem_cons_of_mem t (List.mem_append.2 (Or.inr hy))))
      (fun s hs => htop s (List.mem_cons_of_mem t hs))]
    simp

theorem roots_filter (F : List Category) (hWF : WFForest F) :
    (forestRows F).filter (isRootRow (forestRows F)) = F.map Category.row := by
  obtain ⟨h1, hcp, hroots, hnd⟩ := hWF
  apply filter_root_sub F h1 F (fun y hy => hy)
  intro t ht
  have hr := hroots t ht
  unfold isRootRow
  cases hp : t.row.parent_id with
  | none => rfl
  | some p =>
    rw [hp] at hr
    have hany : (forestRows F).any (fun s => s.id == p) = false := by
      rw [List.any_eq_false]
      intro r hrr
      obtain ⟨y, hy, rfl⟩ := List.mem_map.1 hrr
      simp only [beq_iff_eq]
      intro hcontra
      exact hr (hcontra ▸ mem_forestIds_of_mem hy)
    simp [hany]

theorem build_forestRows (F : List Category) (hWF : WFForest F) :
    build (forestRows F) = F := by
  unfold build
  rw [roots_filter F hWF, List.map_map]
  have hlen : heightForest F ≤ (forestRows F).length := by
    unfold forestRows
    rw [List.length_map]
    exact heightForest_le_length F
  conv_rhs => rw [show F = List.map id F from (List.map_id F).symm]
  apply List.map_congr_left
  intro t ht
  simp only [Function.comp, id]
  apply buildNode_eq F hWF _ t (mem_preorderNodes_of_mem_top ht)
  have := height_le_of_mem ht
  omega

/-! ## Claim C7 — flatten/build round trip -/

theorem flattenRows_eq_forestRows (F : List Category) :
    (flattenCategories F).map (fun e => e.category.row) = forestRows F := by
  unfold forestRows
  rw [← preorderFlatten_map_category F 0, flattenCategories,
    flattenCategoriesAux_eq_preorderFlatten, List.map_map]
  rfl

/-- C7 counterexample: a tree whose child's `parent_id` is `null` (instead
of the parent's id).  Flattening and rebuilding turns the two-node tree
into two roots, so the round trip does not return the original tree: the
claim fails for arbitrary trees and needs well-formedness. -/
theorem c7_counterexample :
    build ((flattenCategories brokenForest).map (fun e => e.category.row))
      ≠ brokenForest := by
  have hrows : (flattenCategories brokenForest).map (fun e => e.category.row)
      = [rowA, rowBOrphan] := by
    simp [flattenCategories, flattenCategoriesAux, brokenForest, brokenRootA,
      Category.row]
  rw [hrows]
  intro h
  have hlen := congrArg List.length h
  simp [build, brokenForest, isRootRow, rowA, rowBOrphan] at hlen

/-- C7 amended: for every well-formed category forest (pairwise-distinct
ids, `children` present with children pointing back at their parent, root
parents null or dangling), flattening and rebuilding from the flattened
rows yields a forest identical to the original. -/
theorem c7_flatten_build_roundtrip (F : List Category) (hWF : WFForest F) :
    build ((flattenCategories F).map (fun e => e.category.row)) = F := by
  rw [flattenRows_eq_forestRows]
  exact build_forestRows F hWF

theorem childrenList_sampleRootA : childrenList sampleRootA = [sampleChildB] := by
  simp [sampleRootA, childrenList, Category.childrenField]

theorem childrenList_sampleChildB : childrenList sampleChildB = [] := by
  simp [sampleChildB, childrenList, Category.childrenField]

theorem preorderNodes_sampleForest :
    preorderNodes sampleForest = [sampleRootA, sampleChildB] := by
  simp [sampleForest, preorderNodes, childrenList_sampleRootA, childrenList_sampleChildB]

theorem sampleForest_wf : WFForest sampleForest := by
  have hids : forestIds sampleForest = ["a", "b"] := by
    simp [forestIds, preorderNodes_sampleForest, Category.id, sampleRootA,
      sampleChildB, Category.row, rowA, rowB]
  refine ⟨?_, ?_, ?_, ?_⟩
  · intro z hz d hd
    rw [preorderNodes_sampleForest] at hz
    rcases List.mem_cons.1 hz with rfl | hz
    · rw [childrenList_sampleRootA] at hd
      rcases List.mem_singleton.1 hd with rfl
      simp [sampleChildB, sampleRootA, Category.row, rowA, rowB]
    · rcases List.mem_singleton.1 hz with rfl
      rw [childrenList_sampleChildB] at hd
      exact absurd hd (List.not_mem_nil d)
  · intro z hz
    rw [preorderNodes_sampleForest] at hz
    rcases List.mem_cons.1 hz with rfl | hz
    · simp [sampleRootA, Category.childrenField]
    · rcases List.mem_singleton.1 hz with rfl
      simp [sampleChildB, Category.childrenField]
  · intro t ht
    rcases List.mem_singleton.1 ht with rfl
    simp [sampleRootA, Category.row, rowA]
  · rw [hids]
    decide

/-- Witness for C7's amended theorem at the concrete well-formed two-node
tree. -/
theorem c7_flatten_build_roundtrip_witness :
    build ((flattenCategories sampleForest).map (fun e => e.category.row))
      = sampleForest :=
  c7_flatten_build_roundtrip sampleForest sampleForest_wf

/-! ## Claim C4 — parent options and the cycle guard -/

/-- Walking upward from any node of a sub-forest whose tops all hang off
parent `pid` reaches `pid` after at most one step per sub-forest node: the
ancestor chain decomposes with `pid`'s chain as a suffix. -/
theorem chain_through (F : List Category) (hnd : (forestIds F).Nodup)
    (h1 : childrenLinked F) :
    ∀ (G : List Category) (pid : String),
      (∀ z ∈ preorderNodes G, z ∈ preorderNodes F) →
      (∀ t ∈ G, t.row.parent_id = some pid) →
      ∀ y ∈ preorderNodes G,
        ∃ k, 1 ≤ k ∧ k ≤ (preorderNodes G).length ∧
          ∀ fuel, k ≤ fuel →
            ∃ pre, ancestorChain (forestRows F) fuel (some y.row.id)
              = pre ++ ancestorChain (forestRows F) (fuel - k) (some pid) := by
  intro G
  induction G using preorderNodes.induct with
  | case1 =>
    intro pid hsub htops y hy
    rw [preorderNodes_nil] at hy
    exact absurd hy (List.not_mem_nil y)
  | case2 c rest ih1 ih2 =>
    intro pid hsub htops y hy
    have hcmemG : c ∈ preorderNodes (c :: rest) :=
      mem_preorderNodes_of_mem_top (List.mem_cons_self c rest)
    have hcmemF : c ∈ preorderNodes F := hsub c hcmemG
    have hfind : (forestRows F).find? (fun s => s.id == c.row.id) = some c.row := by
      apply find_row_of_nodup
      · rw [← forestIds_eq_rows_ids]
        exact hnd
      · exact mem_forestRows_of_mem hcmemF
    have hcpar : c.row.parent_id = some pid := htops c (List.mem_cons_self c rest)
    rw [preorderNodes_cons] at hy
    rcases List.mem_cons.1 hy with rfl | hy
    · refine ⟨1, le_refl 1, by rw [preorderNodes_cons]; simp, ?_⟩
      intro fuel hfuel
      obtain ⟨f, rfl⟩ : ∃ f, fuel = f + 1 := ⟨fuel - 1, by omega⟩
      rw [ancestorChain]
      refine ⟨[y.row.id], ?_⟩
      simp [hfind, hcpar]
    · rcases List.mem_append.1 hy with h | h
      · have hsubl : ∀ z ∈ preorderNodes (childrenList c), z ∈ preorderNodes F :=
          fun z hz => mem_preorderNodes_of_subtree hcmemF hz
        obtain ⟨k1, hk1, hk1le, hch⟩ := ih1 c.row.id hsubl (h1 c hcmemF) y h
        refine ⟨k1 + 1, by omega, ?_, ?_⟩
        · rw [preorderNodes_cons]
          simp only [List.length_cons, List.length_append]
          omega
        · intro fuel hfuel
          obtain ⟨pre1, hpre1⟩ := hch fuel (by omega)
          obtain ⟨f, hf⟩ : ∃ f, fuel - k1 = f + 1 := ⟨fuel - k1 - 1, by omega⟩
          rw [hpre1, hf, ancestorChain]
          refine ⟨pre1 ++ [c.row.id], ?_⟩
          rw [show fuel - (k1 + 1) = f from by omega]
          simp [hfind, hcpar]
      · obtain ⟨k1, hk1, hk1le, hch⟩ := ih2 pid
          (fun z hz => hsub z (by
            rw [preorderNodes_cons]
            exact List.mem_cons_of_mem c (List.mem_append.2 (Or.inr hz))))
          (fun t ht => htops t (List.mem_cons_of_mem c ht)) y h
        refine ⟨k1, hk1, ?_, hch⟩
        rw [preorderNodes_cons]
        simp only [List.length_cons, List.length_append]
        omega

/-- Modelled from the spec: `would_cycle(node, node)` is true — the chain
starting at a proposed parent contains the proposed parent itself. -/
theorem would_cycle_self (rows : List CategoryRow) (nodeId : String) :
    would_cycle rows nodeId nodeId = true := by
  unfold would_cycle
  rw [ancestorChain]
  exact List.elem_eq_true_of_mem (List.mem_cons_self _ _)

/-- Modelled from the spec: in a well-formed forest, walking upward from
any descendant of `x` reaches `x`, so re-parenting `x` under one of its
descendants is rejected. -/
theorem would_cycle_descendant (F : List Category) (hWF : WFForest F)
    (x : Category) (hx : x ∈ preorderNodes F)
    (y : Category) (hy : y ∈ preorderNodes (childrenList x)) :
    would_cycle (forestRows F) x.row.id y.row.id = true := by
  obtain ⟨h1, hcp, hroots, hnd⟩ := hWF
  obtain ⟨k, hk1, hkle, hch⟩ := chain_through F hnd h1 (childrenList x) x.row.id
    (fun z hz => mem_preorderNodes_of_subtree hx hz) (h1 x hx) y hy
  have hlensub : (preorderNodes (childrenList x)).length + 1
      ≤ (preorderNodes F).length := by
    have := (subtree_sublist F x hx).length_le
    simpa using this
  have hrowslen : (forestRows F).length = (preorderNodes F).length := by
    unfold forestRows
    rw [List.length_map]
  obtain ⟨pre, hpre⟩ := hch ((forestRows F).length + 1) (by omega)
  unfold would_cycle
  rw [hpre]
  obtain ⟨f, hf⟩ : ∃ f, (forestRows F).length + 1 - k = f + 1 :=
    ⟨(forestRows F).length - k, by omega⟩
  rw [hf, ancestorChain]
  apply List.elem_eq_true_of_mem
  exact List.mem_append.2 (Or.inr (List.mem_cons_self _ _))

/-- C4 counterexample: for the two-node tree rooted at `a` with child `b`,
the edit page's parent options for `a` still contain `b` — a strict
descendant of the edited category — contradicting "the offered parent
options exclude the edited category and all of its descendants". -/
theorem c4_counterexample :
    (parentOptions sampleRootA sampleForest).map (fun e => e.category.id) = ["b"] ∧
    "b" ∈ subtreeIds sampleRootA ∧ sampleRootA.row.id ≠ "b" := by
  refine ⟨?_, ?_, ?_⟩
  · simp [parentOptions, flattenCategories, flattenCategoriesAux, sampleForest,
      sampleRootA, sampleChildB, Category.id, Category.row, rowA, rowB]
  · simp [subtreeIds, forestIds, preorderNodes, sampleRootA, sampleChildB,
      childrenList, Category.childrenField, Category.id, Category.row, rowA, rowB]
  · simp [sampleRootA, Category.row, rowA]

/-- C4 amended: the edit page's parent options exclude only the edited
category itself (its descendants remain offered); cycle rejection is the
backend's `would_cycle` (modelled from the spec, the Rust backend not
being under `src/`): a proposed parent equal to the category or any of
its descendants is detected as a cycle. -/
theorem c4_parent_options_cycle_guard (category : Category)
    (categories : List Category) (F : List Category) (hWF : WFForest F) :
    (∀ e, e ∈ parentOptions category categories ↔
      (e ∈ flattenCategories categories ∧ e.category.id ≠ category.id)) ∧
    (∀ nodeId, would_cycle (forestRows F) nodeId nodeId = true) ∧
    (∀ x ∈ preorderNodes F, ∀ y ∈ preorderNodes (childrenList x),
      would_cycle (forestRows F) x.row.id y.row.id = true) := by
  refine ⟨?_, fun nodeId => would_cycle_self _ nodeId,
    fun x hx y hy => would_cycle_descendant F hWF x hx y hy⟩
  intro e
  unfold parentOptions
  rw [List.mem_filter]
  simp [bne_iff_ne]

/-- Witness for C4's amended theorem at the concrete two-node tree. -/
theorem c4_parent_options_cycle_guard_witness :
    would_cycle (forestRows sampleForest) "a" "a" = true ∧
    would_cycle (forestRows sampleForest)
      sampleRootA.row.id sampleChildB.row.id = true :=
  ⟨(c4_parent_options_cycle_guard sampleRootA sampleForest sampleForest
      sampleForest_wf).2.1 "a",
   (c4_parent_options_cycle_guard sampleRootA sampleForest sampleForest
      sampleForest_wf).2.2
     sampleRootA (by rw [preorderNodes_sampleForest]; exact List.mem_cons_self _ _)
     sampleChildB (by
       rw [childrenList_sampleRootA]
       exact mem_preorderNodes_of_mem_top (List.mem_cons_self _ _))⟩

/-! ## Claim C10 — the home page loader pairs products with latest reviews -/

theorem goodMap_update (P : List ReviewWire) (m : String → Option ReviewWire)
    (h : GoodMap P m) (r : ReviewWire) :
    GoodMap (P ++ [r]) (updateReviewMap m r) := by
  intro pid
  by_cases hpid : pid = r.product.id
  · subst hpid
    constructor
    · intro hnone
      exfalso
      unfold updateReviewMap at hnone
      rw [if_pos rfl] at hnone
      cases hm : m r.product.id with
      | none => rw [hm] at hnone; simp at hnone
      | some ex =>
        rw [hm] at hnone
        by_cases hgt : r.updated_at > ex.updated_at <;> simp [hgt] at hnone
    · intro r1 hr1
      unfold updateReviewMap at hr1
      rw [if_pos rfl] at hr1
      cases hm : m r.product.id with
      | none =>
        rw [hm] at hr1
        simp at hr1
        subst hr1
        refine ⟨by simp, rfl, ?_⟩
        intro r2 hr2 hr2id
        rcases List.mem_append.1 hr2 with h2 | h2
        · exact absurd hr2id ((h _).1 hm r2 h2)
        · simp only [List.mem_singleton] at h2
          subst h2
          exact le_refl _
      | some ex =>
        rw [hm] at hr1
        have hex := (h r.product.id).2 ex hm
        by_cases hgt : r.updated_at > ex.updated_at
        · simp [hgt] at hr1
          subst hr1
          refine ⟨by simp, rfl, ?_⟩
          intro r2 hr2 hr2id
          rcases List.mem_append.1 hr2 with h2 | h2
          · have := hex.2.2 r2 h2 hr2id
            omega
          · simp only [List.mem_singleton] at h2
            subst h2
            exact le_refl _
        · simp [hgt] at hr1
          subst hr1
          refine ⟨List.mem_append.2 (Or.inl hex.1), hex.2.1, ?_⟩
          intro r2 hr2 hr2id
          rcases List.mem_append.1 hr2 with h2 | h2
          · exact hex.2.2 r2 h2 hr2id
          · simp only [List.mem_singleton] at h2
            subst h2
            omega
  · constructor
    · intro hnone r2 hr2
      unfold updateReviewMap at hnone
      rw [if_neg hpid] at hnone
      rcases List.mem_append.1 hr2 with h2 | h2
      · exact (h pid).1 hnone r2 h2
      · simp only [List.mem_singleton] at h2
        subst h2
        exact fun hc => hpid hc.symm
    · intro r1 hr1
      unfold updateReviewMap at hr1
      rw [if_neg hpid] at hr1
      have hx := (h pid).2 r1 hr1
      refine ⟨List.mem_append.2 (Or.inl hx.1), hx.2.1, ?_⟩
      intro r2 hr2 hr2id
      rcases List.mem_append.1 hr2 with h2 | h2
      · exact hx.2.2 r2 h2 hr2id
      · simp only [List.mem_singleton] at h2
        subst h2
        exact absurd hr2id (fun hc => hpid hc.symm)

theorem goodMap_foldl (l : List ReviewWire) :
    ∀ (P : List ReviewWire) (m : String → Option ReviewWire), GoodMap P m →
      GoodMap (P ++ l) (l.foldl updateReviewMap m) := by
  induction l with
  | nil =>
    intro P m h
    simpa using h
  | cons r l ih =>
    intro P m h
    have hstep := goodMap_update P m h r
    have := ih (P ++ [r]) (updateReviewMap m r) hstep
    simpa using this

theorem goodMap_reviewByProductId (reviews : List ReviewWire) :
    GoodMap reviews (reviewByProductId reviews) := by
  have h0 : GoodMap [] (fun _ => none) := by
    intro pid
    exact ⟨fun _ r hr => absurd hr (List.not_mem_nil r),
      fun r hr => Option.noConfusion hr⟩
  have := goodMap_foldl reviews [] (fun _ => none) h0
  simpa [reviewByProductId] using this

/-- C10: for each product, the loader's item carries the rating and text
of a most-recently-updated review among those whose `product.id` equals
the product's id (strict-`>` keeps the first such maximum), `rating`
(and `text`) are absent when no review references the product, and the
items are the products in order. -/
theorem c10_loader_latest_review (products : List Product)
    (reviews : List ReviewWire) (p : Product) :
    ((∀ r ∈ reviews, r.product.id ≠ p.id) →
      (pairProduct reviews p).rating = none ∧ (pairProduct reviews p).text = none) ∧
    (∀ r0 ∈ reviews, r0.product.id = p.id →
      ∃ r ∈ reviews, r.product.id = p.id ∧
        (∀ r2 ∈ reviews, r2.product.id = p.id → r2.updated_at ≤ r.updated_at) ∧
        (pairProduct reviews p).rating = some r.rating ∧
        (pairProduct reviews p).text = r.text) ∧
    (loadItems products reviews).map ProductWithReview.product = products := by
  have hgood := goodMap_reviewByProductId reviews
  refine ⟨?_, ?_, ?_⟩
  · intro hnone
    cases hmap : reviewByProductId reviews p.id with
    | none => simp [pairProduct, hmap]
    | some r =>
      have hx := (hgood p.id).2 r hmap
      exact absurd hx.2.1 (hnone r hx.1)
  · intro r0 hr0 hr0id
    cases hmap : reviewByProductId reviews p.id with
    | none => exact absurd hr0id ((hgood p.id).1 hmap r0 hr0)
    | some r =>
      have hx := (hgood p.id).2 r hmap
      exact ⟨r, hx.1, hx.2.1, hx.2.2, by simp [pairProduct, hmap],
        by simp [pairProduct, hmap]⟩
  · unfold loadItems
    rw [List.map_map]
    have hcomp : (ProductWithReview.product ∘ pairProduct reviews) = fun q => q := rfl
    rw [hcomp]
    simp

/-- Witness for C10 at a concrete product with two matching reviews and at
an empty review list. -/
theorem c10_loader_latest_review_witness :
    ((pairProduct [] sampleProductX).rating = none ∧
      (pairProduct [] sampleProductX).text = none) ∧
    (∃ r ∈ [sampleReviewOld, sampleReviewNew], r.product.id = sampleProductX.id ∧
      (∀ r2 ∈ [sampleReviewOld, sampleReviewNew], r2.product.id = sampleProductX.id →
        r2.updated_at ≤ r.updated_at) ∧
      (pairProduct [sampleReviewOld, sampleReviewNew] sampleProductX).rating
        = some r.rating ∧
      (pairProduct [sampleReviewOld, sampleReviewNew] sampleProductX).text = r.text) :=
  ⟨(c10_loader_latest_review [] [] sampleProductX).1 (by simp),
   (c10_loader_latest_review [] [sampleReviewOld, sampleReviewNew] sampleProductX).2.1
      sampleReviewOld (by simp) (by decide)⟩

end PocketRatings
